import Mathlib

/-!
# Verification of the Picasso `average3` particle-averaging engine

Shallow embedding of the point-cloud registration and averaging engine of
`picasso/gui/average3.py` (3D particle averaging by cross-correlation), and
proofs of the specified properties.

Conventions of the embedding:
* Python floats are modelled as exact rationals (`ℚ`); the trigonometric
  rotation (`rotate_axis`) is additionally modelled over `ℝ` with real
  `cos`/`sin` for the algebraic round-trip property.  Where `np.cos`/`np.sin`
  feed the rational pipeline they are passed as explicit function parameters
  (`cosF`, `sinF`), so that concrete runs can use exact values such as
  `cos 0 = 1`.
* Images are dense row-major matrices `List (List ℚ)` (`image[b][a]`).
* `np.argmax` returns the index of the first maximum of the flattened array;
  this is embedded by `argmaxList`.
-/

/-- One localization record: spatial coordinates and the particle group id. -/
structure Loc where
  x : ℚ
  y : ℚ
  z : ℚ
  group : ℕ
deriving DecidableEq, Repr

instance : Inhabited Loc := ⟨⟨0, 0, 0, 0⟩⟩

/-- Principal rotation axes (`'x' | 'y' | 'z'` in the source). -/
inductive Axis | x | y | z
deriving DecidableEq, Repr

/-- Projection planes (`'xy' | 'yz' | 'xz'` in the source). -/
inductive Plane | xy | yz | xz
deriving DecidableEq, Repr

/-- A dense 2D float image, row major: `image[b][a]`. -/
abbrev Image := List (List ℚ)

/-- `np.zeros((rows, cols))`. -/
def zerosImage (rows cols : ℕ) : Image :=
  List.replicate rows (List.replicate cols 0)

/-- Read pixel `image[b][a]`, 0 outside (indices are proved in range where used). -/
def imgGet (img : Image) (b a : ℕ) : ℚ :=
  (img.getD b []).getD a 0

/-- `image[b][a] += 1` (out-of-range writes are dropped; in-range is proved where used). -/
def addAt (img : Image) (b a : ℕ) : Image :=
  img.set b ((img.getD b []).set a ((img.getD b []).getD a 0 + 1))

/-- Modelled from the spec: `render._fill` (the deposition kernel of
`picasso.render`, not part of the sources here).  Per §4.3 the renderer
accumulates "a 2D histogram by bilinear or nearest deposition into a dense
float image"; this models the nearest-pixel choice: each already-rescaled
point `(a, b)` increments the pixel at row `⌊b⌋`, column `⌊a⌋`. -/
def fillImage (img : Image) (pts : List (ℚ × ℚ)) : Image :=
  pts.foldl (fun im p => addAt im (Int.toNat ⌊p.2⌋) (Int.toNat ⌊p.1⌋)) img

/-- `in_view` predicate of `render_histxyz` (strict bounds on both axes). -/
def inView (a_min a_max b_min b_max : ℚ) (p : ℚ × ℚ) : Bool :=
  decide (p.1 > a_min) && decide (p.2 > b_min) && decide (p.1 < a_max) && decide (p.2 < b_max)

/-- Embedding of `render_histxyz(a, b, oversampling, a_min, a_max, b_min, b_max)`:
image dimensions are `ceil(oversampling * (max - min))` per axis, points outside
the open bounds are discarded, survivors are rescaled into pixel coordinates and
deposited; returns the retained count and the image. -/
def render_histxyz (a b : List ℚ) (oversampling a_min a_max b_min b_max : ℚ) :
    ℕ × Image :=
  let n_pixel_a : ℕ := (Int.ceil (oversampling * (a_max - a_min))).toNat
  let n_pixel_b : ℕ := (Int.ceil (oversampling * (b_max - b_min))).toNat
  let pts := (a.zip b).filter (inView a_min a_max b_min b_max)
  let scaled := pts.map (fun p => (oversampling * (p.1 - a_min), oversampling * (p.2 - b_min)))
  (scaled.length, fillImage (zerosImage n_pixel_b n_pixel_a) scaled)

/-- `np.argmax` on a float vector: the index of the first occurrence of the
maximum (a later entry replaces the running best only when strictly larger);
0 on the empty vector, where numpy would raise. -/
def argmaxList (v : List ℚ) : ℕ :=
  (List.range v.length).foldl (fun bi k => if v.getD bi 0 < v.getD k 0 then k else bi) 0

/-- Generic form of `rotate_axis`: the right-handed rotation formulas of the
source with the cosine and sine of the angle passed as values, over any field. -/
def rotate_axisG {α : Type} [Field α] (axis : Axis) (c s : α) (vx vy vz pixelsize : α) :
    α × α × α :=
  match axis with
  | Axis.z => (c * vx - s * vy, s * vx + c * vy, vz)
  | Axis.y => (c * vx + s * (vz / pixelsize), vy, -s * vx * pixelsize + c * vz)
  | Axis.x => (vx, c * vy - s * (vz / pixelsize), s * vy * pixelsize + c * vz)

/- `rotate_axis(axis, vx, vy, vz, angle, pixelsize)` in exact real arithmetic is
`rotate_axisG axis (Real.cos angle) (Real.sin angle) vx vy vz pixelsize`; the
round-trip theorem below states it in that applied form so that every
definition in this file stays executable. -/

/-- Elementwise sum of two images (`numpy +`; shapes agree at every use site). -/
def imgAdd (a b : Image) : Image :=
  List.zipWith (List.zipWith (· + ·)) a b

/-- Sum of all pixels of an image. -/
def imgSum (img : Image) : ℚ :=
  (img.map List.sum).sum

/-- `np.sum(np.multiply(a, b))`: elementwise product-sum of two images (the
scalar score of the convolution variant). -/
def imgDot (a b : Image) : ℚ :=
  imgSum (List.zipWith (List.zipWith (· * ·)) a b)

/-- Embedding of `compute_xcorr(CF_image_avg, image)` where the caller built
`CF_image_avg = conj(fft2(ref))` (as `rotate_groups` does): by the discrete
correlation theorem, over exact real arithmetic,
`fftshift(real(ifft2(fft2(image) * conj(fft2(ref)))))[m][n]` equals the
circular cross-correlation
`Σ_{p,q} ref[p][q] * image[(p + m - M//2) mod M][(q + n - N//2) mod N]`,
with `M, N` the image shape and `M//2` the `fftshift` roll amount.  This is
that spatial form, with the negative shift written as `+ (M - M//2)` in `ℕ`. -/
def compute_xcorr (ref image : Image) : Image :=
  let M := image.length
  let N := (image.headD []).length
  (List.range M).map (fun m =>
    (List.range N).map (fun n =>
      ((List.range M).map (fun p =>
        ((List.range N).map (fun q =>
          imgGet ref p q *
            imgGet image ((p + (m + (M - M / 2))) % M) ((q + (n + (N - N / 2))) % N))).sum)).sum))

/-- All parameters reaching one `align_group` / `rotatexy_convolution_group`
call: the mutable GUI state it reads (`self.locs`, the dataset check boxes,
oversampling, the shared bounds, the pixelsize, the translate-only radio
button), the per-channel reference images (`CF` holds the real-space
references; `rotate_groups` pre-conjugates their FFTs, which
`compute_xcorr` above absorbs), the candidate angles and the call
arguments (group, rotation axis, projection plane).  `cosF`/`sinF` stand for
`np.cos`/`np.sin`. -/
structure AlignInput where
  locs : List (List Loc)
  enabled : List Bool
  oversampling : ℚ
  t_min : ℚ
  t_max : ℚ
  z_min : ℚ
  z_max : ℚ
  pixelsize : ℚ
  translatebtn : Bool
  cosF : ℚ → ℚ
  sinF : ℚ → ℚ
  CF : List Image
  angles : List ℚ
  gid : ℕ
  rotaxis : Axis
  proplane : Plane

/-- The member localizations of a group in one channel: the gather
`x[index]` with `index = group_index[j][group].nonzero()[1]` selects, in
order, exactly the rows whose group label equals the group's id. -/
def groupLocs (ch : List Loc) (gid : ℕ) : List Loc :=
  ch.filter (fun l => l.group == gid)

/-- Rotate one localization about `rotaxis` by `angle` (elementwise form of the
array call `rotate_axis(rotaxis, x, y, z, angle, pixelsize)`). -/
def rotLoc (inp : AlignInput) (angle : ℚ) (l : Loc) : Loc :=
  let r := rotate_axisG inp.rotaxis (inp.cosF angle) (inp.sinF angle) l.x l.y l.z inp.pixelsize
  ⟨r.1, r.2.1, r.2.2, l.group⟩

/-- Embedding of `render_planes(xdata, ydata, zdata, proplane, pixelsize)`:
choose the two projected coordinates and their bounds (z data and z bounds are
divided by the pixelsize), then render. -/
def render_planes (inp : AlignInput) (xs ys zs : List ℚ) (proplane : Plane) : Image :=
  match proplane with
  | Plane.xy =>
      (render_histxyz xs ys inp.oversampling inp.t_min inp.t_max inp.t_min inp.t_max).2
  | Plane.yz =>
      (render_histxyz ys (zs.map (· / inp.pixelsize)) inp.oversampling
        inp.t_min inp.t_max (inp.z_min / inp.pixelsize) (inp.z_max / inp.pixelsize)).2
  | Plane.xz =>
      (render_histxyz xs (zs.map (· / inp.pixelsize)) inp.oversampling
        inp.t_min inp.t_max (inp.z_min / inp.pixelsize) (inp.z_max / inp.pixelsize)).2

/-- The query image of channel `j` at one candidate angle: gather the group's
points, rotate them, render the projection plane. -/
def queryImage (inp : AlignInput) (j : ℕ) (angle : ℚ) : Image :=
  let rot := (groupLocs (inp.locs.getD j []) inp.gid).map (rotLoc inp angle)
  render_planes inp (rot.map (·.x)) (rot.map (·.y)) (rot.map (·.z)) inp.proplane

/-- One enabled channel's peak-search scoring at one angle in `align_group`:
returns `(all_xcorr, all_da, all_db)` entries — the correlation value at the
brightest pixel of `compute_xcorr`, and the shifts
`ceil(a_max - n_pixel/2) / oversampling` read off from its position
(`np.unravel_index` of the row-major `argmax`). -/
def chScore (inp : AlignInput) (j : ℕ) (angle : ℚ) : ℚ × ℚ × ℚ :=
  let image := queryImage inp j angle
  let xcorr := compute_xcorr (inp.CF.getD j []) image
  let n_pixelb := image.length
  let n_pixela := (image.headD []).length
  let image_halfa : ℚ := (n_pixela : ℚ) / 2
  let image_halfb : ℚ := (n_pixelb : ℚ) / 2
  let imax := argmaxList xcorr.flatten
  let b_max := imax / n_pixela
  let a_max := imax % n_pixela
  (imgGet xcorr b_max a_max,
    ((Int.ceil ((a_max : ℚ) - image_halfa) : ℤ) : ℚ) / inp.oversampling,
    ((Int.ceil ((b_max : ℚ) - image_halfb) : ℤ) : ℚ) / inp.oversampling)

/-- Whether any channel is enabled (whether the loop body that reassigns
`angles = [0]` under the translate-only button ever runs). -/
def anyEnabled (inp : AlignInput) : Bool :=
  (List.range inp.locs.length).any (fun j => inp.enabled.getD j false)

/-- The effective candidate angle list: the translate-only button replaces
`angles` by `[0]` inside the first enabled channel's iteration. -/
def anglesEff (inp : AlignInput) : List ℚ :=
  if inp.translatebtn && anyEnabled inp then [0] else inp.angles

/-- Entry `(all_xcorr[k,j], all_da[k,j], all_db[k,j])` of the score tables of
`align_group`: the tables are allocated as zeros with the original number of
angle rows, and only rows below the effective angle count of enabled channels
are written. -/
def scoreEntry (inp : AlignInput) (k j : ℕ) : ℚ × ℚ × ℚ :=
  if inp.enabled.getD j false && decide (k < (anglesEff inp).length) then
    chScore inp j ((anglesEff inp).getD k 0)
  else (0, 0, 0)

/-- `all_xcorr[k, j]`. -/
def allXcorr (inp : AlignInput) (k j : ℕ) : ℚ := (scoreEntry inp k j).1

/-- `all_da[k, j]`. -/
def allDa (inp : AlignInput) (k j : ℕ) : ℚ := (scoreEntry inp k j).2.1

/-- `all_db[k, j]`. -/
def allDb (inp : AlignInput) (k j : ℕ) : ℚ := (scoreEntry inp k j).2.2

/-- `np.sum(all_xcorr, axis=1)`: per-angle scores summed over all channels. -/
def rowSums (inp : AlignInput) : List ℚ :=
  (List.range inp.angles.length).map (fun k =>
    ((List.range inp.locs.length).map (fun j => allXcorr inp k j)).sum)

/-- `maximumcc = np.argmax(np.sum(all_xcorr, axis=1))`. -/
def maximumcc (inp : AlignInput) : ℕ := argmaxList (rowSums inp)

/-- `rotfinal = angles[maximumcc]` (on the possibly reassigned angle list). -/
def rotfinal (inp : AlignInput) : ℚ := (anglesEff inp).getD (maximumcc inp) 0

/-- `dafinal = np.mean(all_da[maximumcc, :])`: the mean is over **all**
channels, enabled or not. -/
def dafinal (inp : AlignInput) : ℚ :=
  ((List.range inp.locs.length).map (fun j => allDa inp (maximumcc inp) j)).sum
    / (inp.locs.length : ℚ)

/-- `dbfinal = np.mean(all_db[maximumcc, :])`, zeroed in the writeback loop
when the translate-only button is checked. -/
def dbfinal (inp : AlignInput) : ℚ :=
  if inp.translatebtn then 0
  else
    ((List.range inp.locs.length).map (fun j => allDb inp (maximumcc inp) j)).sum
      / (inp.locs.length : ℚ)

/-- The translation writeback of `align_group` on one localization: subtract
`dafinal` / `dbfinal` from the plane's two axes (z-axis shifts are scaled back
by the pixelsize). -/
def shiftLoc (inp : AlignInput) (l : Loc) : Loc :=
  match inp.proplane with
  | Plane.xy => { l with x := l.x - dafinal inp, y := l.y - dbfinal inp }
  | Plane.yz => { l with y := l.y - dafinal inp, z := l.z - dbfinal inp * inp.pixelsize }
  | Plane.xz => { l with z := l.z - dafinal inp, x := l.x - dbfinal inp * inp.pixelsize }

/-- The writeback of `align_group`: for **every** channel (the final loop has
no enabled-check), the group's rows are rotated by `rotfinal` and then shifted
by the mean translation; the scatter `x[index] = ...` at the group's member
rows is the elementwise update of exactly those rows. -/
def alignGroup (inp : AlignInput) : List (List Loc) :=
  inp.locs.map (fun ch =>
    ch.map (fun l =>
      if l.group == inp.gid then shiftLoc inp (rotLoc inp (rotfinal inp) l) else l))

/-- `all_xcorr[k, j]` of `rotatexy_convolution_group`: the scalar product-sum
score `np.sum(np.multiply(CF_image_avg[j], image))` for enabled channels, zero
otherwise. -/
def convXcorr (inp : AlignInput) (k j : ℕ) : ℚ :=
  if inp.enabled.getD j false && decide (k < (anglesEff inp).length) then
    imgDot (inp.CF.getD j []) (queryImage inp j ((anglesEff inp).getD k 0))
  else 0

/-- `np.sum(all_xcorr, axis=1)` of the convolution variant. -/
def convRowSums (inp : AlignInput) : List ℚ :=
  (List.range inp.angles.length).map (fun k =>
    ((List.range inp.locs.length).map (fun j => convXcorr inp k j)).sum)

/-- `maximumcc` of the convolution variant. -/
def convMaximumcc (inp : AlignInput) : ℕ := argmaxList (convRowSums inp)

/-- `rotfinal` of the convolution variant. -/
def convRotfinal (inp : AlignInput) : ℚ := (anglesEff inp).getD (convMaximumcc inp) 0

/-- The channel indices whose dataset check box is checked. -/
def enabledIdx (inp : AlignInput) : List ℕ :=
  (List.range inp.locs.length).filter (fun j => inp.enabled.getD j false)

/-- Modelled from the spec's words, for comparison with `dafinal`: the
"mean of per-channel computed shifts" with "the mean taken over the enabled
channels" — the enabled channels' shift entries at the winning angle, divided
by the number of enabled channels. -/
def specMeanEnabledDa (inp : AlignInput) : ℚ :=
  ((enabledIdx inp).map (fun j => allDa inp (maximumcc inp) j)).sum
    / ((enabledIdx inp).length : ℚ)

/-- All member localizations of one group stacked across every channel
(`stack_arrays` of the per-channel gathers in `centerofmass`). -/
def groupPoints (locs : List (List Loc)) (gid : ℕ) : List Loc :=
  (locs.map (fun ch => groupLocs ch gid)).flatten

/-- `mean_x = np.mean(out_locs_x)` of `centerofmass` for one group: the mean
over the stacked member coordinates of **all** channels (the loop has no
enabled-check). -/
def groupMeanX (locs : List (List Loc)) (gid : ℕ) : ℚ :=
  ((groupPoints locs gid).map (·.x)).sum / ((groupPoints locs gid).length : ℚ)

/-- `mean_y` of `centerofmass` for one group. -/
def groupMeanY (locs : List (List Loc)) (gid : ℕ) : ℚ :=
  ((groupPoints locs gid).map (·.y)).sum / ((groupPoints locs gid).length : ℚ)

/-- `mean_z` of `centerofmass` for one group. -/
def groupMeanZ (locs : List (List Loc)) (gid : ℕ) : ℚ :=
  ((groupPoints locs gid).map (·.z)).sum / ((groupPoints locs gid).length : ℚ)

/-- One group iteration of `centerofmass`: subtract the group's stacked
centroid from the group's member rows in every channel (the scatter
`x[index] -= mean_x` is the elementwise update of exactly those rows). -/
def centerofmassGroup (locs : List (List Loc)) (gid : ℕ) : List (List Loc) :=
  locs.map (fun ch =>
    ch.map (fun l =>
      if l.group == gid then
        ⟨l.x - groupMeanX locs gid, l.y - groupMeanY locs gid,
          l.z - groupMeanZ locs gid, l.group⟩
      else l))

/-- Modelled from the spec's words, for comparison with the centroid of
`centerofmassGroup`: the group's member localizations stacked across the
**enabled** channels only. -/
def specEnabledGroupPoints (locs : List (List Loc)) (enabled : List Bool) (gid : ℕ) :
    List Loc :=
  ((List.range locs.length).filter (fun j => enabled.getD j false)).flatMap
    (fun j => groupLocs (locs.getD j []) gid)

/-- Modelled from the spec's words: the x-centroid "across enabled channels". -/
def specEnabledGroupMeanX (locs : List (List Loc)) (enabled : List Bool) (gid : ℕ) : ℚ :=
  ((specEnabledGroupPoints locs enabled gid).map (·.x)).sum
    / ((specEnabledGroupPoints locs enabled gid).length : ℚ)

/-- `3 * np.sqrt(np.mean(x**2 + y**2))` for one channel (lateral bounding
radius contribution, lines 606). -/
noncomputable def channelR (ch : List Loc) : ℝ :=
  3 * Real.sqrt (((ch.map (fun l => ((l.x : ℝ)) ^ 2 + ((l.y : ℝ)) ^ 2)).sum) / (ch.length : ℝ))

/-- `5 * np.sqrt(np.mean(z**2))` for one channel (axial bounding radius
contribution, line 607). -/
noncomputable def channelRz (ch : List Loc) : ℝ :=
  5 * Real.sqrt (((ch.map (fun l => ((l.z : ℝ)) ^ 2)).sum) / (ch.length : ℝ))

/-- The `self.r` recomputation after recentring: fold of
`r = np.max([3 * sqrt(mean(x² + y²)), r])` over the channels from `r = 0`. -/
noncomputable def rAfter (locs : List (List Loc)) : ℝ :=
  locs.foldl (fun r ch => max (channelR ch) r) 0

/-- The `self.r_z` recomputation after recentring. -/
noncomputable def rzAfter (locs : List (List Loc)) : ℝ :=
  locs.foldl (fun r ch => max (channelRz ch) r) 0

/-- The shared bounding state written at the end of `centerofmass`:
`(t_min, t_max, z_min, z_max) = (-r, r, -r_z, r_z)`. -/
noncomputable def boundsAfter (locs : List (List Loc)) : ℝ × ℝ × ℝ × ℝ :=
  (-(rAfter locs), rAfter locs, -(rzAfter locs), rzAfter locs)

/-- The spec's "RMS over that channel's points of sqrt(x² + y²)": root of the
mean of the squared lateral radii, stated exactly as the spec words it. -/
noncomputable def rmsLateral (ch : List Loc) : ℝ :=
  Real.sqrt (((ch.map (fun l => (Real.sqrt (((l.x : ℝ)) ^ 2 + ((l.y : ℝ)) ^ 2)) ^ 2)).sum)
    / (ch.length : ℝ))

/-- Insertion into a sorted list (ascending). -/
def insertSorted (x : ℕ) : List ℕ → List ℕ
  | [] => [x]
  | y :: ys => if x ≤ y then x :: y :: ys else y :: insertSorted x ys

/-- Ascending insertion sort on naturals. -/
def sortNat (l : List ℕ) : List ℕ := l.foldr insertSorted []

/-- `np.unique(locs.group)` in `add` (line 507): the sorted distinct group ids
of a channel. -/
def uniqueGroups (ch : List Loc) : List ℕ :=
  (sortNat (ch.map (·.group))).dedup

/-- `np.where(locs.group == group)[0]` (line 515): the member row indices of a
group id, ascending. -/
def membersOf (ch : List Loc) (g : ℕ) : List ℕ :=
  (List.range ch.length).filter (fun i => decide ((ch.getD i default).group = g))

/-- Row `i` of the group index built by `add`: the member indices of the `i`-th
distinct group id. -/
def membersRow (ch : List Loc) (i : ℕ) : List ℕ :=
  match (uniqueGroups ch)[i]? with
  | some g => membersOf ch g
  | none => []

/-- Sum of a nonempty list of images (empty gives the empty image). -/
def imgSumList : List Image → Image
  | [] => []
  | x :: xs => xs.foldl imgAdd x

/-- The shape of an image: its list of row lengths. -/
def imgShape (im : Image) : List ℕ := im.map List.length

/-- The integer-order Symmetry Builder of `rotate_groups` /
`rotatexy_convolution`: `imageold = image[0].copy()`, then
`image[0] += rotate(imageold, (i+1)*360/symmetry)` for `i in
range(symmetry-1)`; every other channel's image is untouched.  `rotImg`
stands for the external collaborator
`scipy.ndimage.interpolation.rotate(·, ·, axes=(1,0), reshape=False)`
(continuous image-plane rotation, output size held fixed), with the angle in
degrees first. -/
def symmetrize (rotImg : ℚ → Image → Image) (symmetry : ℕ) (image : List Image) :
    List Image :=
  let imageold := image.headD []
  image.set 0
    ((List.range (symmetry - 1)).foldl
      (fun acc (i : ℕ) =>
        imgAdd acc (rotImg (((i : ℚ) + 1) * 360 / (symmetry : ℚ)) imageold))
      imageold)

/-- The custom-angle Symmetry Builder: `image[0] += rotate(imageold, degree)`
for each listed degree. -/
def symmetrizeCustom (rotImg : ℚ → Image → Image) (degrees : List ℚ)
    (image : List Image) : List Image :=
  let imageold := image.headD []
  image.set 0 (degrees.foldl (fun acc d => imgAdd acc (rotImg d imageold)) imageold)

/-- A concrete one-channel aligner run (one point at `(1/2, 1/2)`, one
candidate angle `0`, exact trigonometric values at `0`). -/
def exInput : AlignInput :=
  { locs := [[⟨1/2, 1/2, 0, 0⟩]], enabled := [true], oversampling := 1,
    t_min := 0, t_max := 2, z_min := -1, z_max := 1, pixelsize := 1,
    translatebtn := false, cosF := fun _ => 1, sinF := fun _ => 0,
    CF := [[[0, 0], [0, 1]]], angles := [0], gid := 0,
    rotaxis := Axis.z, proplane := Plane.xy }

/-- A concrete two-channel aligner run in which channel 1 is disabled: channel
0 holds one point at `(1/2, 1/2)` scored against the reference `[[0,0],[0,1]]`
(computed shift `-1`), channel 1 holds one point at the origin and is excluded
from scoring. -/
def exInput2 : AlignInput :=
  { locs := [[⟨1/2, 1/2, 0, 0⟩], [⟨0, 0, 0, 0⟩]], enabled := [true, false],
    oversampling := 1, t_min := 0, t_max := 2, z_min := -1, z_max := 1,
    pixelsize := 1, translatebtn := false, cosF := fun _ => 1, sinF := fun _ => 0,
    CF := [[[0, 0], [0, 1]], [[0, 0], [0, 0]]], angles := [0], gid := 0,
    rotaxis := Axis.z, proplane := Plane.xy }

/-- A concrete one-channel aligner run whose only group lies entirely outside
the render bounds `(0, 2)`: every channel is degenerate (zero points retained
at the chosen resolution). -/
def exInput3 : AlignInput :=
  { locs := [[⟨10, 10, 0, 0⟩]], enabled := [true], oversampling := 1,
    t_min := 0, t_max := 2, z_min := -1, z_max := 1, pixelsize := 1,
    translatebtn := false, cosF := fun _ => 1, sinF := fun _ => 0,
    CF := [[[0, 0], [0, 0]]], angles := [0], gid := 0,
    rotaxis := Axis.z, proplane := Plane.xy }

/-- Two channels, one group: member at the origin in channel 0 and at
`x = 2` in channel 1; channel 1's dataset check box is off. -/
def exLocs6 : List (List Loc) := [[⟨0, 0, 0, 0⟩], [⟨2, 0, 0, 0⟩]]

/-- The check-box state for `exLocs6`: channel 1 disabled. -/
def exEnabled6 : List Bool := [true, false]

theorem argmaxFold_spec (v : List ℚ) (n : ℕ) :
    ((List.range n).foldl (fun bi k => if v.getD bi 0 < v.getD k 0 then k else bi) 0 = 0 ∨
      (List.range n).foldl (fun bi k => if v.getD bi 0 < v.getD k 0 then k else bi) 0 < n) ∧
    ∀ k, k < n →
      v.getD k 0 ≤
        v.getD ((List.range n).foldl (fun bi k => if v.getD bi 0 < v.getD k 0 then k else bi) 0) 0 := by
  induction n with
  | zero => exact ⟨Or.inl rfl, fun k hk => absurd hk (Nat.not_lt_zero k)⟩
  | succ n ih =>
      rw [List.range_succ, List.foldl_append]
      obtain ⟨ihb, ihge⟩ := ih
      set r := (List.range n).foldl (fun bi k => if v.getD bi 0 < v.getD k 0 then k else bi) 0 with hr
      simp only [List.foldl_cons, List.foldl_nil]
      by_cases hlt : v.getD r 0 < v.getD n 0
      · rw [if_pos hlt]
        refine ⟨Or.inr (Nat.lt_succ_self n), fun k hk => ?_⟩
        rcases Nat.lt_succ_iff_lt_or_eq.mp hk with h | h
        · exact le_of_lt (lt_of_le_of_lt (ihge k h) hlt)
        · exact le_of_eq (by rw [h])
      · rw [if_neg hlt]
        refine ⟨ihb.imp id (fun h => Nat.lt_succ_of_lt h), fun k hk => ?_⟩
        rcases Nat.lt_succ_iff_lt_or_eq.mp hk with h | h
        · exact ihge k h
        · rw [h]; exact le_of_not_lt hlt

theorem argmaxList_ge (v : List ℚ) (k : ℕ) (hk : k < v.length) :
    v.getD k 0 ≤ v.getD (argmaxList v) 0 :=
  (argmaxFold_spec v v.length).2 k hk

theorem rowSums_getD (inp : AlignInput) (k : ℕ) (hk : k < inp.angles.length) :
    (rowSums inp).getD k 0 =
      ((List.range inp.locs.length).map (fun j => allXcorr inp k j)).sum := by
  have hk' : k < (rowSums inp).length := by simp [rowSums, hk]
  rw [List.getD_eq_getElem _ _ hk']
  simp [rowSums]

theorem convRowSums_getD (inp : AlignInput) (k : ℕ) (hk : k < inp.angles.length) :
    (convRowSums inp).getD k 0 =
      ((List.range inp.locs.length).map (fun j => convXcorr inp k j)).sum := by
  have hk' : k < (convRowSums inp).length := by simp [convRowSums, hk]
  rw [List.getD_eq_getElem _ _ hk']
  simp [convRowSums]

/-- C1: for every group, every candidate angle list and every channel
configuration, both the peak-search aligner (`align_group`) and the
convolution-score aligner (`rotatexy_convolution_group`) pick as winning
rotation the angle whose score summed over all channels is maximal
(`maximumcc` maximises `rowSums`, and `rotfinal` is the angle at that index),
and a channel disabled by the caller contributes a zero score at every
angle. -/
theorem alignGroup_selects_max_summed_score (inp : AlignInput) (k : ℕ)
    (hk : k < inp.angles.length) :
    (rowSums inp).getD k 0 ≤ (rowSums inp).getD (maximumcc inp) 0 ∧
    (convRowSums inp).getD k 0 ≤ (convRowSums inp).getD (convMaximumcc inp) 0 ∧
    (rowSums inp).getD k 0 =
      ((List.range inp.locs.length).map (fun j => allXcorr inp k j)).sum ∧
    rotfinal inp = (anglesEff inp).getD (maximumcc inp) 0 ∧
    convRotfinal inp = (anglesEff inp).getD (convMaximumcc inp) 0 ∧
    ∀ j : ℕ, inp.enabled.getD j false = false →
      allXcorr inp k j = 0 ∧ convXcorr inp k j = 0 := by
  refine ⟨?_, ?_, rowSums_getD inp k hk, rfl, rfl, ?_⟩
  · exact argmaxList_ge (rowSums inp) k (by simp [rowSums, hk])
  · exact argmaxList_ge (convRowSums inp) k (by simp [convRowSums, hk])
  · intro j hj
    rw [List.getD_eq_getElem?_getD] at hj
    constructor
    · simp [allXcorr, scoreEntry, hj]
    · simp [convXcorr, hj]

/-- Witness for C1 at the concrete input `exInput`, angle index 0. -/
theorem alignGroup_selects_max_summed_score_witness :
    0 < exInput.angles.length ∧
      (rowSums exInput).getD 0 0 ≤ (rowSums exInput).getD (maximumcc exInput) 0 :=
  ⟨by decide, (alignGroup_selects_max_summed_score exInput 0 (by decide)).1⟩

theorem sum_map_eq_sum_filter (l : List ℕ) (p : ℕ → Bool) (f : ℕ → ℚ)
    (h : ∀ j ∈ l, p j = false → f j = 0) :
    (l.map f).sum = ((l.filter p).map f).sum := by
  induction l with
  | nil => rfl
  | cons a t ih =>
      have ht := ih (fun j hj hpj => h j (List.mem_cons_of_mem a hj) hpj)
      cases hpa : p a with
      | true => simp [List.filter_cons, hpa, ht]
      | false => simp [List.filter_cons, hpa, ht, h a (List.mem_cons_self a t) hpa]

unseal Rat.add Rat.mul Rat.inv Rat.sub in
/-- C2 counterexample: at `exInput2` (channel 1 disabled, channel 0's
computed shift `-1` at the winning angle) the applied translation `dafinal`
is `-1/2` — the table mean over **all** channels — not the mean over the
enabled channels (`-1`); and the disabled channel, whose rotation at the
winning angle is the identity map, nevertheless has its coordinates changed
by the translation writeback. -/
theorem alignGroup_translation_cex :
    dafinal exInput2 = -(1 / 2) ∧
    specMeanEnabledDa exInput2 = -1 ∧
    dafinal exInput2 ≠ specMeanEnabledDa exInput2 ∧
    rotLoc exInput2 (rotfinal exInput2) ⟨0, 0, 0, 0⟩ = ⟨0, 0, 0, 0⟩ ∧
    (alignGroup exInput2).getD 1 [] = [⟨1 / 2, 1 / 2, 0, 0⟩] ∧
    exInput2.locs.getD 1 [] = [⟨0, 0, 0, 0⟩] := by
  decide

/-- C2 amended: in peak-search mode the translation written back is the
sum of the enabled channels' computed shifts at the winning angle divided by
the **total** number of channels (disabled channels contribute zero table
entries), and that single mean shift — together with the winning rotation —
is applied to **every** channel's group rows, including channels excluded
from scoring. -/
theorem alignGroup_mean_shift_over_all_channels (inp : AlignInput) (j : ℕ)
    (hj : j < inp.locs.length) :
    dafinal inp =
      ((enabledIdx inp).map (fun i => allDa inp (maximumcc inp) i)).sum
        / (inp.locs.length : ℚ) ∧
    (alignGroup inp).getD j [] =
      (inp.locs.getD j []).map
        (fun l => if l.group == inp.gid then shiftLoc inp (rotLoc inp (rotfinal inp) l)
          else l) := by
  constructor
  · unfold dafinal enabledIdx
    congr 1
    apply sum_map_eq_sum_filter
    intro i _ hpi
    rw [List.getD_eq_getElem?_getD] at hpi
    simp [allDa, scoreEntry, hpi]
  · have hj2 : j < (alignGroup inp).length := by simpa [alignGroup] using hj
    rw [List.getD_eq_getElem _ _ hj2, List.getD_eq_getElem _ _ hj]
    simp [alignGroup]

/-- Witness for the amended C2 at `exInput2`, channel index 1. -/
theorem alignGroup_mean_shift_over_all_channels_witness :
    1 < exInput2.locs.length ∧
      dafinal exInput2 =
        ((enabledIdx exInput2).map (fun i => allDa exInput2 (maximumcc exInput2) i)).sum
          / (exInput2.locs.length : ℚ) :=
  ⟨by decide, (alignGroup_mean_shift_over_all_channels exInput2 1 (by decide)).1⟩

unseal Rat.add Rat.mul Rat.inv Rat.sub in
/-- C3: evaluation at the failing input `exInput3` — the group's points
lie outside the render bounds in every channel (zero retained points, an
all-zero query image, hence fewer than 2 points at the chosen resolution),
yet the applied transform is **not** the identity: the all-zero correlation's
argmax at pixel `(0,0)` yields the shift entry `ceil(0 - n_pixel/2) /
oversampling = -1`, which is written back, moving the group from `(10,10)`
to `(11,11)`.  No exception is raised (the embedding is total, as is the
numpy code path). -/
theorem alignGroup_degenerate_not_identity :
    (render_histxyz [10] [10] 1 0 2 0 2).1 = 0 ∧
    queryImage exInput3 0 ((anglesEff exInput3).getD 0 0) = zerosImage 2 2 ∧
    dafinal exInput3 = -1 ∧
    (alignGroup exInput3).getD 0 [] = [⟨11, 11, 0, 0⟩] ∧
    alignGroup exInput3 ≠ exInput3.locs := by
  decide

/-- C4: for every axis, every nonzero pixelsize, every angle and every
coordinate triple, `rotate(axis, angle, pixelsize)` followed by
`rotate(axis, -angle, pixelsize)` returns the original coordinates exactly, in
real arithmetic (`rotate_axis` is `rotate_axisG` at `Real.cos`/`Real.sin`). -/
theorem rotate_axis_roundtrip (axis : Axis) (vx vy vz angle pixelsize : ℝ)
    (hp : pixelsize ≠ 0) :
    rotate_axisG axis (Real.cos (-angle)) (Real.sin (-angle))
      (rotate_axisG axis (Real.cos angle) (Real.sin angle) vx vy vz pixelsize).1
      (rotate_axisG axis (Real.cos angle) (Real.sin angle) vx vy vz pixelsize).2.1
      (rotate_axisG axis (Real.cos angle) (Real.sin angle) vx vy vz pixelsize).2.2
      pixelsize = (vx, vy, vz) := by
  have h := Real.sin_sq_add_cos_sq angle
  have hc : Real.cos angle ^ 2 = 1 - Real.sin angle ^ 2 := by linarith
  cases axis <;>
    simp only [rotate_axisG, Real.cos_neg, Real.sin_neg, Prod.mk.injEq] <;>
    refine ⟨?_, ?_, ?_⟩ <;>
    field_simp <;>
    ring_nf <;>
    rw [hc] <;>
    ring

/-- Witness for C4: the x-axis at pixelsize 1. -/
theorem rotate_axis_roundtrip_witness :
    (1 : ℝ) ≠ 0 ∧
      rotate_axisG Axis.x (Real.cos (-2)) (Real.sin (-2))
        (rotate_axisG Axis.x (Real.cos 2) (Real.sin 2) 3 4 5 1).1
        (rotate_axisG Axis.x (Real.cos 2) (Real.sin 2) 3 4 5 1).2.1
        (rotate_axisG Axis.x (Real.cos 2) (Real.sin 2) 3 4 5 1).2.2
        1 = (3, 4, 5) :=
  ⟨one_ne_zero, rotate_axis_roundtrip Axis.x 3 4 5 2 1 one_ne_zero⟩

theorem sum_set_add_one (r : List ℚ) (a : ℕ) (ha : a < r.length) :
    (r.set a (r.getD a 0 + 1)).sum = r.sum + 1 := by
  induction r generalizing a with
  | nil => simp at ha
  | cons v t ih =>
      cases a with
      | zero => simp [List.sum_cons]; ring
      | succ n =>
          have hn : n < t.length := by simpa using ha
          simp only [List.getD_cons_succ, List.set_cons_succ, List.sum_cons, ih n hn]
          ring

theorem imgSum_addAt (img : Image) (b a : ℕ) (hb : b < img.length)
    (ha : a < (img.getD b []).length) :
    imgSum (addAt img b a) = imgSum img + 1 := by
  induction img generalizing b with
  | nil => simp at hb
  | cons r t ih =>
      cases b with
      | zero =>
          have ha0 : a < r.length := ha
          show imgSum ((r.set a (r.getD a 0 + 1)) :: t) = imgSum (r :: t) + 1
          simp only [imgSum, List.map_cons, List.sum_cons, sum_set_add_one r a ha0]
          ring
      | succ n =>
          have hn : n < t.length := by simpa using hb
          have han : a < (t.getD n []).length := ha
          show imgSum (r :: addAt t n a) = imgSum (r :: t) + 1
          have hrec := ih n hn han
          simp only [imgSum, List.map_cons, List.sum_cons] at hrec ⊢
          rw [hrec]
          ring

theorem addAt_shape (img : Image) (b a : ℕ) (A : ℕ)
    (hrows : ∀ row ∈ img, row.length = A) (hb : b < img.length) :
    (addAt img b a).length = img.length ∧
      ∀ row ∈ addAt img b a, row.length = A := by
  refine ⟨List.length_set img b _, fun row hrow => ?_⟩
  rcases List.mem_or_eq_of_mem_set hrow with h | h
  · exact hrows row h
  · subst h
    rw [List.length_set, List.getD_eq_getElem _ _ hb]
    exact hrows _ (List.getElem_mem hb)

theorem fillImage_spec (pts : List (ℚ × ℚ)) (img : Image) (B A : ℕ)
    (hpts : ∀ p ∈ pts, Int.toNat ⌊p.1⌋ < A ∧ Int.toNat ⌊p.2⌋ < B)
    (hlen : img.length = B) (hrows : ∀ row ∈ img, row.length = A) :
    imgSum (fillImage img pts) = imgSum img + (pts.length : ℚ) ∧
      (fillImage img pts).length = B ∧
      ∀ row ∈ fillImage img pts, row.length = A := by
  induction pts generalizing img with
  | nil => exact ⟨by simp [fillImage], hlen, hrows⟩
  | cons p rest ih =>
      have hp := hpts p (List.mem_cons_self p rest)
      have hb : Int.toNat ⌊p.2⌋ < img.length := hlen ▸ hp.2
      have ha : Int.toNat ⌊p.1⌋ < (img.getD (Int.toNat ⌊p.2⌋) []).length := by
        rw [List.getD_eq_getElem _ _ hb, hrows _ (List.getElem_mem hb)]
        exact hp.1
      have hshape := addAt_shape img (Int.toNat ⌊p.2⌋) (Int.toNat ⌊p.1⌋) A hrows hb
      have hsum := imgSum_addAt img (Int.toNat ⌊p.2⌋) (Int.toNat ⌊p.1⌋) hb ha
      have hrest := ih (addAt img (Int.toNat ⌊p.2⌋) (Int.toNat ⌊p.1⌋))
        (fun q hq => hpts q (List.mem_cons_of_mem p hq))
        (hshape.1.trans hlen) hshape.2
      refine ⟨?_, hrest.2.1, hrest.2.2⟩
      have heq : fillImage img (p :: rest) =
          fillImage (addAt img (Int.toNat ⌊p.2⌋) (Int.toNat ⌊p.1⌋)) rest := rfl
      rw [heq, hrest.1, hsum, List.length_cons]
      push_cast
      ring

theorem imgSum_zeros (rows cols : ℕ) : imgSum (zerosImage rows cols) = 0 := by
  simp [imgSum, zerosImage, List.map_replicate, List.sum_replicate]

theorem zerosImage_shape (rows cols : ℕ) :
    (zerosImage rows cols).length = rows ∧
      ∀ row ∈ zerosImage rows cols, row.length = cols := by
  refine ⟨by simp [zerosImage], fun row hrow => ?_⟩
  rw [List.eq_of_mem_replicate hrow]
  simp

theorem scaled_in_range (os minv maxv v : ℚ) (hos : 0 < os) (h1 : minv < v)
    (h2 : v < maxv) :
    Int.toNat ⌊os * (v - minv)⌋ < (Int.ceil (os * (maxv - minv))).toNat := by
  have hx0 : (0 : ℚ) < os * (v - minv) := mul_pos hos (by linarith)
  have hxy : os * (v - minv) < os * (maxv - minv) :=
    mul_lt_mul_of_pos_left (by linarith) hos
  have hfl : (0 : ℤ) ≤ ⌊os * (v - minv)⌋ := Int.floor_nonneg.mpr (le_of_lt hx0)
  have hlt : ⌊os * (v - minv)⌋ < Int.ceil (os * (maxv - minv)) := by
    have hq : (⌊os * (v - minv)⌋ : ℚ) < ((Int.ceil (os * (maxv - minv)) : ℤ) : ℚ) :=
      lt_of_le_of_lt (Int.floor_le _) (lt_of_lt_of_le hxy (Int.le_ceil _))
    exact_mod_cast hq
  omega

/-- C5: for every point list, bounds with `max > min` on each axis and
positive oversampling, `render_histxyz` produces an image whose dimensions per
axis are `ceil(oversampling * (max - min))`, retains exactly the points
strictly inside the open bounds on both axes (returning that count), deposits
exactly those points into the image (the pixel sum equals the count), and
returns the all-zero image when no point is strictly inside. -/
theorem render_histxyz_spec (a b : List ℚ) (os a_min a_max b_min b_max : ℚ)
    (hos : 0 < os) (hA : a_min < a_max) (hB : b_min < b_max) :
    (((render_histxyz a b os a_min a_max b_min b_max).2.length : ℤ)
        = Int.ceil (os * (b_max - b_min))) ∧
    (∀ row ∈ (render_histxyz a b os a_min a_max b_min b_max).2,
        (row.length : ℤ) = Int.ceil (os * (a_max - a_min))) ∧
    ((render_histxyz a b os a_min a_max b_min b_max).1
        = ((a.zip b).filter (inView a_min a_max b_min b_max)).length) ∧
    (imgSum (render_histxyz a b os a_min a_max b_min b_max).2
        = ((render_histxyz a b os a_min a_max b_min b_max).1 : ℚ)) ∧
    ((a.zip b).filter (inView a_min a_max b_min b_max) = [] →
      (render_histxyz a b os a_min a_max b_min b_max).2 =
        zerosImage (Int.ceil (os * (b_max - b_min))).toNat
          (Int.ceil (os * (a_max - a_min))).toNat) := by
  have hceilA : (0 : ℤ) < Int.ceil (os * (a_max - a_min)) :=
    Int.ceil_pos.mpr (mul_pos hos (by linarith))
  have hceilB : (0 : ℤ) < Int.ceil (os * (b_max - b_min)) :=
    Int.ceil_pos.mpr (mul_pos hos (by linarith))
  set A := (Int.ceil (os * (a_max - a_min))).toNat with hAdef
  set B := (Int.ceil (os * (b_max - b_min))).toNat with hBdef
  set flt := (a.zip b).filter (inView a_min a_max b_min b_max) with hflt
  set scaled := flt.map (fun p => (os * (p.1 - a_min), os * (p.2 - b_min))) with hscaled
  have hr2 : (render_histxyz a b os a_min a_max b_min b_max).2 =
      fillImage (zerosImage B A) scaled := rfl
  have hr1 : (render_histxyz a b os a_min a_max b_min b_max).1 = scaled.length := rfl
  have hz := zerosImage_shape B A
  have hpts : ∀ p ∈ scaled, Int.toNat ⌊p.1⌋ < A ∧ Int.toNat ⌊p.2⌋ < B := by
    intro p hp
    rw [hscaled] at hp
    obtain ⟨q, hq, rfl⟩ := List.mem_map.mp hp
    rw [hflt] at hq
    have hqv := (List.mem_filter.mp hq).2
    simp only [inView, Bool.and_eq_true, decide_eq_true_eq] at hqv
    obtain ⟨⟨⟨h1, h2⟩, h3⟩, h4⟩ := hqv
    exact ⟨scaled_in_range os a_min a_max q.1 hos h1 h3,
      scaled_in_range os b_min b_max q.2 hos h2 h4⟩
  have hfill := fillImage_spec scaled (zerosImage B A) B A hpts hz.1 hz.2
  have hcastA : ((A : ℤ)) = Int.ceil (os * (a_max - a_min)) :=
    Int.toNat_of_nonneg (le_of_lt hceilA)
  have hcastB : ((B : ℤ)) = Int.ceil (os * (b_max - b_min)) :=
    Int.toNat_of_nonneg (le_of_lt hceilB)
  refine ⟨?_, ?_, ?_, ?_, ?_⟩
  · rw [hr2, hfill.2.1]; exact hcastB
  · intro row hrow
    rw [hr2] at hrow
    rw [hfill.2.2 row hrow]
    exact hcastA
  · rw [hr1, hscaled, List.length_map]
  · rw [hr1, hr2, hfill.1, imgSum_zeros, zero_add]
  · intro hempty
    rw [hr2, hscaled, hempty]
    rfl

/-- Witness for C5: one point at `(1/2, 1/2)` in the box `(0,2) × (0,2)` at
oversampling 1. -/
theorem render_histxyz_spec_witness :
    (0 : ℚ) < 1 ∧ (0 : ℚ) < 2 ∧
      (render_histxyz [1 / 2] [1 / 2] 1 0 2 0 2).1
        = (([(1 : ℚ) / 2].zip [(1 : ℚ) / 2]).filter (inView 0 2 0 2)).length :=
  ⟨one_pos, two_pos,
    (render_histxyz_spec [1 / 2] [1 / 2] 1 0 2 0 2 one_pos two_pos two_pos).2.2.1⟩

unseal Rat.add Rat.mul Rat.inv Rat.sub in
/-- C6 counterexample: at `exLocs6` with channel 1 disabled
(`exEnabled6`), the centroid `centerofmass` subtracts is the mean over **all**
channels' member points (`x`-centroid 1), not the spec's mean over the enabled
channels (`x`-centroid 0): the enabled channel's point moves from the origin
to `x = -1`. -/
theorem centerofmass_centroid_cex :
    groupMeanX exLocs6 0 = 1 ∧
    specEnabledGroupMeanX exLocs6 exEnabled6 0 = 0 ∧
    groupMeanX exLocs6 0 ≠ specEnabledGroupMeanX exLocs6 exEnabled6 0 ∧
    (centerofmassGroup exLocs6 0).getD 0 [] = [⟨-1, 0, 0, 0⟩] ∧
    (centerofmassGroup exLocs6 0).getD 1 [] = [⟨1, 0, 0, 0⟩] := by
  decide

theorem groupLocs_map_group_preserving (ch : List Loc) (gid : ℕ) (F : Loc → Loc)
    (hF : ∀ l, (F l).group = l.group) :
    groupLocs (ch.map F) gid = (groupLocs ch gid).map F := by
  unfold groupLocs
  rw [List.filter_map]
  congr 1
  apply List.filter_congr
  intro l _
  simp [Function.comp, hF]

theorem sum_map_sub_const (pts : List Loc) (g : Loc → ℚ) (c : ℚ) :
    (pts.map (fun l => g l - c)).sum = (pts.map g).sum - (pts.length : ℚ) * c := by
  induction pts with
  | nil => simp
  | cons p t ih =>
      simp only [List.map_cons, List.sum_cons, ih, List.length_cons]
      push_cast
      ring

theorem groupPoints_centerofmassGroup (locs : List (List Loc)) (gid : ℕ) :
    groupPoints (centerofmassGroup locs gid) gid =
      (groupPoints locs gid).map (fun l =>
        (⟨l.x - groupMeanX locs gid, l.y - groupMeanY locs gid,
          l.z - groupMeanZ locs gid, l.group⟩ : Loc)) := by
  have hF : ∀ l : Loc,
      ((fun l : Loc => if l.group == gid then
        (⟨l.x - groupMeanX locs gid, l.y - groupMeanY locs gid,
          l.z - groupMeanZ locs gid, l.group⟩ : Loc) else l) l).group = l.group := by
    intro l
    by_cases hg : l.group == gid <;> simp [hg]
  have hch : ∀ ch : List Loc,
      groupLocs (ch.map (fun l : Loc => if l.group == gid then
        (⟨l.x - groupMeanX locs gid, l.y - groupMeanY locs gid,
          l.z - groupMeanZ locs gid, l.group⟩ : Loc) else l)) gid =
      (groupLocs ch gid).map (fun l =>
        (⟨l.x - groupMeanX locs gid, l.y - groupMeanY locs gid,
          l.z - groupMeanZ locs gid, l.group⟩ : Loc)) := by
    intro ch
    rw [groupLocs_map_group_preserving ch gid _ hF]
    apply List.map_congr_left
    intro l hl
    have hg : l.group == gid := (List.mem_filter.mp hl).2
    simp [hg]
  unfold groupPoints centerofmassGroup
  rw [List.map_map]
  have hcomp : ((fun ch => groupLocs ch gid) ∘ fun ch : List Loc =>
      ch.map (fun l : Loc => if l.group == gid then
        (⟨l.x - groupMeanX locs gid, l.y - groupMeanY locs gid,
          l.z - groupMeanZ locs gid, l.group⟩ : Loc) else l)) =
      fun ch : List Loc => (groupLocs ch gid).map (fun l =>
        (⟨l.x - groupMeanX locs gid, l.y - groupMeanY locs gid,
          l.z - groupMeanZ locs gid, l.group⟩ : Loc)) := by
    funext ch
    exact hch ch
  rw [hcomp, List.map_flatten, List.map_map]
  rfl

theorem sum_centered (pts : List Loc) (g : Loc → ℚ) (hn : pts ≠ []) :
    (pts.map (fun l => g l - (pts.map g).sum / (pts.length : ℚ))).sum = 0 := by
  have hlen : ((pts.length : ℚ)) ≠ 0 :=
    Nat.cast_ne_zero.mpr (fun h0 => hn (List.length_eq_zero.mp h0))
  rw [sum_map_sub_const]
  field_simp

/-- C6 amended: for every group, `centerofmass` computes the centroid
across **all** channels' member points of that group (channel enablement is
not consulted) and subtracts that centroid from the matching group's
coordinates in every channel; consequently the group's pooled coordinates sum
to zero afterwards. -/
theorem centerofmassGroup_recentres (locs : List (List Loc)) (gid : ℕ)
    (h : groupPoints locs gid ≠ []) :
    (∀ j, j < locs.length → (centerofmassGroup locs gid).getD j [] =
        (locs.getD j []).map (fun l => if l.group == gid then
          (⟨l.x - groupMeanX locs gid, l.y - groupMeanY locs gid,
            l.z - groupMeanZ locs gid, l.group⟩ : Loc) else l)) ∧
    ((groupPoints (centerofmassGroup locs gid) gid).map (·.x)).sum = 0 ∧
    ((groupPoints (centerofmassGroup locs gid) gid).map (·.y)).sum = 0 ∧
    ((groupPoints (centerofmassGroup locs gid) gid).map (·.z)).sum = 0 := by
  refine ⟨?_, ?_, ?_, ?_⟩
  · intro j hj
    have hj2 : j < (centerofmassGroup locs gid).length := by
      simpa [centerofmassGroup] using hj
    rw [List.getD_eq_getElem _ _ hj2, List.getD_eq_getElem _ _ hj]
    simp [centerofmassGroup]
  · rw [groupPoints_centerofmassGroup, List.map_map]
    exact sum_centered (groupPoints locs gid) (·.x) h
  · rw [groupPoints_centerofmassGroup, List.map_map]
    exact sum_centered (groupPoints locs gid) (·.y) h
  · rw [groupPoints_centerofmassGroup, List.map_map]
    exact sum_centered (groupPoints locs gid) (·.z) h

/-- Witness for the amended C6 at `exLocs6`, group 0. -/
theorem centerofmassGroup_recentres_witness :
    groupPoints exLocs6 0 ≠ [] ∧
      ((groupPoints (centerofmassGroup exLocs6 0) 0).map (·.x)).sum = 0 :=
  ⟨by decide, (centerofmassGroup_recentres exLocs6 0 (by decide)).2.1⟩

theorem foldl_max_bounds {α : Type} (f : α → ℝ) (l : List α) (a : ℝ) :
    a ≤ l.foldl (fun r ch => max (f ch) r) a ∧
      ∀ ch ∈ l, f ch ≤ l.foldl (fun r ch => max (f ch) r) a := by
  induction l generalizing a with
  | nil => simp
  | cons c t ih =>
      simp only [List.foldl_cons]
      obtain ⟨h1, h2⟩ := ih (max (f c) a)
      refine ⟨le_trans (le_max_right _ _) h1, fun ch hch => ?_⟩
      rcases List.mem_cons.mp hch with hc | hc
      · subst hc
        exact le_trans (le_max_left _ _) h1
      · exact h2 ch hc

theorem foldl_max_attained {α : Type} (f : α → ℝ) (l : List α) (a : ℝ) :
    l.foldl (fun r ch => max (f ch) r) a = a ∨
      ∃ ch ∈ l, l.foldl (fun r ch => max (f ch) r) a = f ch := by
  induction l generalizing a with
  | nil => exact Or.inl rfl
  | cons c t ih =>
      simp only [List.foldl_cons]
      rcases ih (max (f c) a) with h | ⟨ch, hch, he⟩
      · rcases max_choice (f c) a with hm | hm
        · exact Or.inr ⟨c, List.mem_cons_self c t, h.trans hm⟩
        · exact Or.inl (h.trans hm)
      · exact Or.inr ⟨ch, List.mem_cons_of_mem c hch, he⟩

theorem channelR_nonneg (ch : List Loc) : 0 ≤ channelR ch := by
  unfold channelR
  positivity

theorem channelRz_nonneg (ch : List Loc) : 0 ≤ channelRz ch := by
  unfold channelRz
  positivity

/-- C7: the bounding state recomputed at the end of `centerofmass` has
`r` equal to the maximum over channels of `3 * RMS(sqrt(x² + y²))`
(`channelR`, shown equal to three times the spec's `rmsLateral`), `r_z` the
maximum over channels of `5 * RMS(z)`, and
`(t_min, t_max, z_min, z_max) = (-r, r, -r_z, r_z)`. -/
theorem centerofmass_bounds (locs : List (List Loc)) (h : locs ≠ []) :
    (∀ ch ∈ locs, channelR ch ≤ rAfter locs) ∧
    (∃ ch ∈ locs, rAfter locs = channelR ch) ∧
    (∀ ch ∈ locs, channelRz ch ≤ rzAfter locs) ∧
    (∃ ch ∈ locs, rzAfter locs = channelRz ch) ∧
    (∀ ch : List Loc, channelR ch = 3 * rmsLateral ch) ∧
    boundsAfter locs = (-(rAfter locs), rAfter locs, -(rzAfter locs), rzAfter locs) := by
  obtain ⟨c0, hc0⟩ := List.exists_mem_of_ne_nil locs h
  refine ⟨(foldl_max_bounds channelR locs 0).2, ?_, (foldl_max_bounds channelRz locs 0).2,
    ?_, ?_, rfl⟩
  · rcases foldl_max_attained channelR locs 0 with h0 | hex
    · refine ⟨c0, hc0, le_antisymm ?_ ?_⟩
      · rw [rAfter, h0]
        exact channelR_nonneg c0
      · exact (foldl_max_bounds channelR locs 0).2 c0 hc0
    · exact hex
  · rcases foldl_max_attained channelRz locs 0 with h0 | hex
    · refine ⟨c0, hc0, le_antisymm ?_ ?_⟩
      · rw [rzAfter, h0]
        exact channelRz_nonneg c0
      · exact (foldl_max_bounds channelRz locs 0).2 c0 hc0
    · exact hex
  · intro ch
    unfold channelR rmsLateral
    have hfun : (fun l : Loc => (Real.sqrt (((l.x : ℝ)) ^ 2 + ((l.y : ℝ)) ^ 2)) ^ 2) =
        fun l : Loc => ((l.x : ℝ)) ^ 2 + ((l.y : ℝ)) ^ 2 := by
      funext l
      exact Real.sq_sqrt (by positivity)
    rw [hfun]

/-- Witness for C7: a single channel holding the point `(3, 4, 0)`. -/
theorem centerofmass_bounds_witness :
    ([[(⟨3, 4, 0, 0⟩ : Loc)]] : List (List Loc)) ≠ [] ∧
      ∃ ch ∈ ([[(⟨3, 4, 0, 0⟩ : Loc)]] : List (List Loc)),
        rAfter [[(⟨3, 4, 0, 0⟩ : Loc)]] = channelR ch :=
  ⟨by simp, (centerofmass_bounds [[(⟨3, 4, 0, 0⟩ : Loc)]] (by simp)).2.1⟩

theorem mem_insertSorted (x y : ℕ) (l : List ℕ) :
    y ∈ insertSorted x l ↔ y = x ∨ y ∈ l := by
  induction l with
  | nil => simp [insertSorted]
  | cons a t ih =>
      simp only [insertSorted]
      by_cases h : x ≤ a
      · simp [h]
      · rw [if_neg h]
        simp only [List.mem_cons, ih]
        tauto

theorem mem_sortNat (y : ℕ) (l : List ℕ) : y ∈ sortNat l ↔ y ∈ l := by
  induction l with
  | nil => simp [sortNat]
  | cons a t ih =>
      simp only [sortNat, List.foldr_cons] at *
      rw [mem_insertSorted, ih]
      simp

theorem mem_membersOf (ch : List Loc) (g idx : ℕ) :
    idx ∈ membersOf ch g ↔ idx < ch.length ∧ (ch.getD idx default).group = g := by
  simp [membersOf, List.mem_filter, List.mem_range]

/-- C8: for every channel (in this model every localization carries a
group id), the group index built by `add` partitions the channel's row
indices exactly: every row index below the channel length belongs to exactly
one group row's member list. -/
theorem groupIndex_partitions (ch : List Loc) (idx : ℕ) (h : idx < ch.length) :
    ∃! i, i < (uniqueGroups ch).length ∧ idx ∈ membersRow ch i := by
  set g := (ch.getD idx default).group with hg
  have hmem : g ∈ uniqueGroups ch := by
    rw [uniqueGroups, List.mem_dedup, mem_sortNat, hg, List.getD_eq_getElem _ _ h]
    exact List.mem_map.mpr ⟨ch[idx], List.getElem_mem h, rfl⟩
  obtain ⟨⟨i, hi⟩, hgi⟩ := List.mem_iff_get.mp hmem
  have hnd : (uniqueGroups ch).Nodup := List.nodup_dedup _
  have hrow : ∀ (i' : ℕ) (hi' : i' < (uniqueGroups ch).length),
      (idx ∈ membersRow ch i' ↔
        (ch.getD idx default).group = (uniqueGroups ch).get ⟨i', hi'⟩) := by
    intro i' hi'
    have hsome : (uniqueGroups ch)[i']? = some ((uniqueGroups ch).get ⟨i', hi'⟩) := by
      rw [List.getElem?_eq_getElem hi']
      rfl
    rw [membersRow, hsome, mem_membersOf]
    exact ⟨fun hp => hp.2, fun hp => ⟨h, hp⟩⟩
  refine ⟨i, ⟨hi, ?_⟩, ?_⟩
  · rw [hrow i hi]
    exact hgi.symm
  · rintro i' ⟨hi', hmem'⟩
    rw [hrow i' hi'] at hmem'
    have heq : (uniqueGroups ch).get ⟨i', hi'⟩ = (uniqueGroups ch).get ⟨i, hi⟩ :=
      (hg.trans hmem').symm.trans hgi.symm
    have := (List.Nodup.get_inj_iff hnd).mp heq
    simpa using this

/-- Witness for C8: a three-row channel with group ids `[5, 2, 5]`, row 2. -/
theorem groupIndex_partitions_witness :
    2 < ([⟨0, 0, 0, 5⟩, ⟨1, 0, 0, 2⟩, ⟨2, 0, 0, 5⟩] : List Loc).length ∧
      ∃! i, i < (uniqueGroups [⟨0, 0, 0, 5⟩, ⟨1, 0, 0, 2⟩, ⟨2, 0, 0, 5⟩]).length ∧
        2 ∈ membersRow [⟨0, 0, 0, 5⟩, ⟨1, 0, 0, 2⟩, ⟨2, 0, 0, 5⟩] i :=
  ⟨by decide, groupIndex_partitions [⟨0, 0, 0, 5⟩, ⟨1, 0, 0, 2⟩, ⟨2, 0, 0, 5⟩] 2 (by decide)⟩

theorem zipWith_add_assoc (a b c : List ℚ) :
    List.zipWith (· + ·) (List.zipWith (· + ·) a b) c =
      List.zipWith (· + ·) a (List.zipWith (· + ·) b c) := by
  induction a generalizing b c with
  | nil => simp
  | cons x xs ih =>
      cases b with
      | nil => simp
      | cons y ys =>
          cases c with
          | nil => simp
          | cons z zs => simp [ih, add_assoc]

theorem imgAdd_assoc (a b c : Image) :
    imgAdd (imgAdd a b) c = imgAdd a (imgAdd b c) := by
  unfold imgAdd
  induction a generalizing b c with
  | nil => simp
  | cons r rs ih =>
      cases b with
      | nil => simp
      | cons s ss =>
          cases c with
          | nil => simp
          | cons t ts => simp [ih, zipWith_add_assoc]

theorem foldl_imgAdd_pull (xs : List Image) (b x : Image) :
    xs.foldl imgAdd (imgAdd b x) = imgAdd b (xs.foldl imgAdd x) := by
  induction xs generalizing x with
  | nil => rfl
  | cons y ys ih =>
      simp only [List.foldl_cons, imgAdd_assoc, ih]

theorem foldl_imgAdd_eq_sumList (b : Image) (l : List Image) (h : l ≠ []) :
    l.foldl imgAdd b = imgAdd b (imgSumList l) := by
  cases l with
  | nil => exact absurd rfl h
  | cons x xs => exact foldl_imgAdd_pull xs b x

theorem imgShape_imgAdd (a b : Image) (h : imgShape a = imgShape b) :
    imgShape (imgAdd a b) = imgShape a := by
  unfold imgShape imgAdd at *
  induction a generalizing b with
  | nil => simp
  | cons r rs ih =>
      cases b with
      | nil => simp at h
      | cons s ss =>
          simp only [List.map_cons, List.cons.injEq] at h
          simp [List.length_zipWith, h.1, ih ss h.2]

theorem imgShape_foldl (b : Image) (l : List Image)
    (h : ∀ im ∈ l, imgShape im = imgShape b) :
    imgShape (l.foldl imgAdd b) = imgShape b := by
  induction l generalizing b with
  | nil => rfl
  | cons x xs ih =>
      have hx : imgShape x = imgShape b := h x (List.mem_cons_self x xs)
      have hadd : imgShape (imgAdd b x) = imgShape b := imgShape_imgAdd b x hx.symm
      rw [List.foldl_cons]
      have hrest : ∀ im ∈ xs, imgShape im = imgShape (imgAdd b x) :=
        fun im him => (h im (List.mem_cons_of_mem x him)).trans hadd.symm
      exact (ih (imgAdd b x) hrest).trans hadd

/-- C9: with integer symmetry order `k ≥ 2`, the Symmetry Builder's output
for channel 0 equals the base image plus the sum of the `k-1` copies of the
base rotated by the evenly spaced angles `(i+1) * 360 / k` for
`i = 0..k-2`, with the output shaped like the base (given that the image
rotation keeps the shape, as `reshape=False` guarantees); with an explicit
angle list, the output equals the base plus one rotated copy per listed
angle. -/
theorem symmetrize_spec (rotImg : ℚ → Image → Image) (k : ℕ) (image : List Image)
    (degrees : List ℚ) (hk : 2 ≤ k)
    (hshape : ∀ θ im, imgShape (rotImg θ im) = imgShape im)
    (hdeg : degrees ≠ []) :
    (symmetrize rotImg k image).getD 0 [] =
        imgAdd (image.headD [])
          (imgSumList ((List.range (k - 1)).map
            (fun (i : ℕ) => rotImg (((i : ℚ) + 1) * 360 / (k : ℚ)) (image.headD [])))) ∧
    imgShape ((symmetrize rotImg k image).getD 0 []) = imgShape (image.headD []) ∧
    (symmetrizeCustom rotImg degrees image).getD 0 [] =
        imgAdd (image.headD [])
          (imgSumList (degrees.map (fun d => rotImg d (image.headD [])))) := by
  have hfold1 : ∀ base : Image,
      (List.range (k - 1)).foldl
        (fun acc (i : ℕ) =>
          imgAdd acc (rotImg (((i : ℚ) + 1) * 360 / (k : ℚ)) base)) base =
      imgAdd base (imgSumList ((List.range (k - 1)).map
        (fun (i : ℕ) => rotImg (((i : ℚ) + 1) * 360 / (k : ℚ)) base))) := by
    intro base
    have hfm : ((List.range (k - 1)).map
          (fun i : ℕ => rotImg (((i : ℚ) + 1) * 360 / (k : ℚ)) base)).foldl imgAdd base =
        (List.range (k - 1)).foldl
          (fun acc (i : ℕ) =>
            imgAdd acc (rotImg (((i : ℚ) + 1) * 360 / (k : ℚ)) base)) base :=
      List.foldl_map _ _ _ _
    rw [← hfm]
    apply foldl_imgAdd_eq_sumList
    intro hm
    have h0 : List.range (k - 1) = [] := List.map_eq_nil_iff.mp hm
    have hl := congrArg List.length h0
    simp only [List.length_range, List.length_nil] at hl
    omega
  have hfold2 : ∀ base : Image,
      degrees.foldl (fun acc d => imgAdd acc (rotImg d base)) base =
      imgAdd base (imgSumList (degrees.map (fun d => rotImg d base))) := by
    intro base
    have hfm : (degrees.map (fun d => rotImg d base)).foldl imgAdd base =
        degrees.foldl (fun acc d => imgAdd acc (rotImg d base)) base :=
      List.foldl_map _ _ _ _
    rw [← hfm]
    apply foldl_imgAdd_eq_sumList
    simpa using hdeg
  have hshapefold : ∀ base : Image,
      imgShape ((List.range (k - 1)).foldl
        (fun acc (i : ℕ) =>
          imgAdd acc (rotImg (((i : ℚ) + 1) * 360 / (k : ℚ)) base)) base) =
      imgShape base := by
    intro base
    have hfm : ((List.range (k - 1)).map
          (fun i : ℕ => rotImg (((i : ℚ) + 1) * 360 / (k : ℚ)) base)).foldl imgAdd base =
        (List.range (k - 1)).foldl
          (fun acc (i : ℕ) =>
            imgAdd acc (rotImg (((i : ℚ) + 1) * 360 / (k : ℚ)) base)) base :=
      List.foldl_map _ _ _ _
    rw [← hfm]
    apply imgShape_foldl
    intro im him
    obtain ⟨i, _, rfl⟩ := List.mem_map.mp him
    exact hshape _ base
  cases image with
  | nil =>
      refine ⟨?_, rfl, ?_⟩ <;> simp [symmetrize, symmetrizeCustom, imgAdd]
  | cons im0 rest =>
      refine ⟨?_, ?_, ?_⟩
      · show (List.range (k - 1)).foldl
            (fun acc (i : ℕ) =>
              imgAdd acc (rotImg (((i : ℚ) + 1) * 360 / (k : ℚ)) im0)) im0 = _
        exact hfold1 im0
      · show imgShape ((List.range (k - 1)).foldl
            (fun acc (i : ℕ) =>
              imgAdd acc (rotImg (((i : ℚ) + 1) * 360 / (k : ℚ)) im0)) im0) = _
        exact hshapefold im0
      · show degrees.foldl (fun acc d => imgAdd acc (rotImg d im0)) im0 = _
        exact hfold2 im0

/-- Witness for C9: identity image rotation, `k = 2`, one 1×1 channel. -/
theorem symmetrize_spec_witness :
    2 ≤ 2 ∧ ([(90 : ℚ)] : List ℚ) ≠ [] ∧
      (symmetrize (fun _ im => im) 2 [[[1]]]).getD 0 [] =
        imgAdd ([[[(1 : ℚ)]]].headD [])
          (imgSumList ((List.range (2 - 1)).map
            (fun i => (fun (_ : ℚ) (im : Image) => im)
              (((i : ℚ) + 1) * 360 / (2 : ℚ)) ([[[(1 : ℚ)]]].headD [])))) :=
  ⟨le_refl 2, by simp,
    (symmetrize_spec (fun _ im => im) 2 [[[1]]] [90] (le_refl 2)
      (fun _ _ => rfl) (by simp)).1⟩

/-- C10: when symmetry (integer-order or custom-angle) is applied, only
channel 0's reference image is replaced; every other channel's reference
image is left exactly equal to its plain render. -/
theorem symmetrize_other_channels_untouched (rotImg : ℚ → Image → Image)
    (k : ℕ) (degrees : List ℚ) (image : List Image) (j : ℕ)
    (hj : j < image.length) (hj0 : j ≠ 0) :
    (symmetrize rotImg k image).getD j [] = image.getD j [] ∧
    (symmetrizeCustom rotImg degrees image).getD j [] = image.getD j [] := by
  constructor <;>
  · rw [List.getD_eq_getElem _ _ (by simpa [symmetrize, symmetrizeCustom] using hj),
      List.getD_eq_getElem _ _ hj]
    simp [symmetrize, symmetrizeCustom, List.getElem_set_ne (Ne.symm hj0)]

/-- Witness for C10: two 1×1 channels, channel index 1. -/
theorem symmetrize_other_channels_untouched_witness :
    1 < ([[[1]], [[2]]] : List Image).length ∧ (1 : ℕ) ≠ 0 ∧
      (symmetrize (fun _ im => im) 2 [[[1]], [[2]]]).getD 1 [] =
        ([[[1]], [[2]]] : List Image).getD 1 [] :=
  ⟨by simp, one_ne_zero,
    (symmetrize_other_channels_untouched (fun _ im => im) 2 [90] [[[1]], [[2]]] 1
      (by simp) one_ne_zero).1⟩
